import Mathlib

/-!
Verification of the `openid-redis` store (`openidredis/__init__.py`).

The development shallowly embeds the Python module in Lean:

* Redis is modelled as an association list of entries `(key, value, expireAt)`
  with absolute expiry times; every operation takes the current time `now : Int`
  explicitly (the Python code reads `time.time()`).  A key is visible while
  `now < expireAt`.  Overwriting a key with `SET`/`GETSET` discards its expiry,
  and `EXPIRE` with a non-positive ttl makes the key immediately invisible,
  matching Redis semantics.
* The SHA-1 digest (`openid.cryptutil.sha1`) is an external primitive and is a
  parameter `sha1 : String → List Nat` (a byte list); base64 encoding
  (`oidutil.toBase64`) is embedded concretely.
* Association serialization is external: `ser : Association → String` and
  `deser : String → Association` are parameters.
* Python exceptions are modelled with `Except String`; the string carries the
  kind of error raised.
* Time stamps and the skew are integers (the code mixes `int` time stamps with
  `time.time()` floats; the model works at whole seconds).
-/

/-- Python truthiness of an optional string (`None` and `''`/`b''` are falsy). -/
def pyTruthy : Option String → Bool
  | none => false
  | some v => v ≠ ""

/-- Little-endian base-`b` digits of `n`, with explicit fuel so that the
definition is structurally recursive (kernel-computable).  With fuel `n + 1`
the fuel never runs out. -/
def natDigitsAux (b : Nat) : Nat → Nat → List Nat
  | _, 0 => []
  | n, fuel + 1 => if n < b then [n] else n % b :: natDigitsAux b (n / b) fuel

/-- Little-endian base-`b` digits of `n` (least significant first). -/
def natDigits (b n : Nat) : List Nat :=
  natDigitsAux b n (n + 1)

/-- Decimal digit character. -/
def decDigitChar (d : Nat) : Char :=
  Char.ofNat (48 + d)

/-- Uppercase hexadecimal digit character (`'0'`-`'9'` then `'A'`-`'F'`). -/
def hexDigitUpper (d : Nat) : Char :=
  if d < 10 then Char.ofNat (48 + d) else Char.ofNat (55 + d)

/-- Lowercase hexadecimal digit character (`'0'`-`'9'` then `'a'`-`'f'`). -/
def hexDigitLower (d : Nat) : Char :=
  if d < 10 then Char.ofNat (48 + d) else Char.ofNat (87 + d)

/-- Decimal rendering of a natural number. -/
def decStr (n : Nat) : String :=
  String.mk ((natDigits 10 n).reverse.map decDigitChar)

/-- The Python `'%s' % i` rendering of an integer. -/
def pyStrInt (i : Int) : String :=
  if i < 0 then "-" ++ decStr (-i).toNat else decStr i.toNat

/-- Left-pad a character list with `'0'` up to width `w`. -/
def padZero (w : Nat) (l : List Char) : List Char :=
  List.replicate (w - l.length) '0' ++ l

/-- The Python `'%02X' % n` rendering: uppercase hex, zero-padded to width 2. -/
def pct02X (n : Nat) : String :=
  String.mk (padZero 2 ((natDigits 16 n).reverse.map hexDigitUpper))

/-- The Python `'%08x' % i` rendering: lowercase hex, zero-padded to total
width 8 (a negative number carries a leading sign inside the width). -/
def pct08x (i : Int) : String :=
  if i < 0 then
    "-" ++ String.mk (padZero 7 ((natDigits 16 (-i).toNat).reverse.map hexDigitLower))
  else
    String.mk (padZero 8 ((natDigits 16 i.toNat).reverse.map hexDigitLower))

/-- Split a character list at the first occurrence of the pattern `pat`
(`s.split(pat, 1)` in Python); `none` when the pattern does not occur. -/
def splitFirstAux (pat : List Char) : List Char → Option (List Char × List Char)
  | [] => none
  | c :: cs =>
    if pat.isPrefixOf (c :: cs) then some ([], (c :: cs).drop pat.length)
    else
      match splitFirstAux pat cs with
      | some (pre, post) => some (c :: pre, post)
      | none => none

/-- Split a string at the first occurrence of `pat`; `none` when `pat` does
not occur (Python `s.find(pat) == -1` / 1-element result of `s.split(pat, 1)`). -/
def splitFirstStr (pat s : String) : Option (String × String) :=
  (splitFirstAux pat.data s.data).map (fun p => (String.mk p.1, String.mk p.2))

/-- The text before the first `'/'` of `s` (Python `s.split('/', 1)[0]`). -/
def beforeFirstSlash (s : String) : String :=
  String.mk (s.data.takeWhile (fun c => c ≠ '/'))

/-- Boolean list-prefix test (used to model the Redis `KEYS pre*` pattern). -/
def listStarts : List Char → List Char → Bool
  | [], _ => true
  | _ :: _, [] => false
  | a :: as, b :: bs => a = b && listStarts as bs

/-- Python `int(s)` on the strings this store writes: an optional sign
followed by decimal digits; `none` models the `ValueError` raised otherwise. -/
def pyInt (s : String) : Option Int :=
  let digitsVal : List Char → Int :=
    fun ds => ds.foldl (fun acc d => acc * 10 + (d.toNat - 48 : Int)) 0
  match s.data with
  | [] => none
  | '-' :: ds => if ds ≠ [] && ds.all Char.isDigit then some (-(digitsVal ds)) else none
  | ds => if ds.all Char.isDigit then some (digitsVal ds) else none

/-- Base64 alphabet character. -/
def b64Char (n : Nat) : Char :=
  ("ABCDEFGHIJKLMNOPQRSTUVWXYZabcdefghijklmnopqrstuvwxyz0123456789+/").data.getD n 'A'

/-- `oidutil.toBase64`: standard base64 encoding of a byte list, with `'='`
padding. -/
def toBase64 : List Nat → String
  | [] => ""
  | [b1] =>
    String.mk [b64Char (b1 / 4), b64Char (b1 % 4 * 16)] ++ "=="
  | [b1, b2] =>
    String.mk [b64Char (b1 / 4), b64Char (b1 % 4 * 16 + b2 / 16), b64Char (b2 % 16 * 4)] ++ "="
  | b1 :: b2 :: b3 :: rest =>
    String.mk [b64Char (b1 / 4), b64Char (b1 % 4 * 16 + b2 / 16),
               b64Char (b2 % 16 * 4 + b3 / 64), b64Char (b3 % 64)] ++ toBase64 rest

/-- `_filename_allowed = string.ascii_letters + string.digits + '.'`;
`_isFilenameSafe` is membership in that set. -/
def _isFilenameSafe (c : Char) : Bool :=
  c.isAlpha || c.isDigit || c = '.'

/-- `_filenameEscape`: each safe character is kept, every other character is
replaced by `'_%02X' % ord(c)`; the chunks are joined in order. -/
def _filenameEscape (s : String) : String :=
  String.join (s.data.map (fun c =>
    if _isFilenameSafe c then String.mk [c] else "_" ++ pct02X c.toNat))

/-- `_safe64`: base64 of the SHA-1 digest, then `'+' → '_'`, `'/' → '.'` and
all `'='` stripped.  The SHA-1 primitive is the parameter `sha1`. -/
def _safe64 (sha1 : String → List Nat) (s : String) : String :=
  let h64 := toBase64 (sha1 s)
  let h64 := String.mk (h64.data.map (fun c => if c = '+' then '_' else c))
  let h64 := String.mk (h64.data.map (fun c => if c = '/' then '.' else c))
  String.mk (h64.data.filter (fun c => c ≠ '='))

/-- One Redis key: its current string value and an optional absolute expiry
time.  The key is visible at time `t` iff `expireAt` is unset or `t` is
strictly before it. -/
structure Entry where
  key : String
  value : String
  expireAt : Option Int
deriving DecidableEq, Repr

/-- The Redis database: a list of entries (key-uniqueness is a property of
stores reachable through the operations, and a hypothesis where needed). -/
abbrev Store := List Entry

/-- Whether an entry is visible (not expired) at time `now`. -/
def entryLive (now : Int) (e : Entry) : Bool :=
  match e.expireAt with
  | none => true
  | some t => now < t

/-- Redis `GET`: the value of the first live entry for the key. -/
def redisGet (s : Store) (now : Int) (k : String) : Option String :=
  (s.find? (fun e => e.key == k && entryLive now e)).map Entry.value

/-- Redis `SET`: replace the key with a fresh, non-expiring entry. -/
def redisSet (s : Store) (k v : String) : Store :=
  ⟨k, v, none⟩ :: s.filter (fun e => e.key != k)

/-- Redis `GETSET`: atomically read the old (live) value and overwrite the key
with a fresh, non-expiring entry. -/
def getset (s : Store) (now : Int) (k v : String) : Option String × Store :=
  (redisGet s now k, ⟨k, v, none⟩ :: s.filter (fun e => e.key != k))

/-- Redis `EXPIRE key ttl`: set the expiry of a live key to `now + ttl`
(a non-positive `ttl` therefore makes the key immediately invisible);
a missing or expired key is untouched. -/
def expire (s : Store) (now : Int) (k : String) (ttl : Int) : Store :=
  s.map (fun e => if e.key == k && entryLive now e then ⟨e.key, e.value, some (now + ttl)⟩ else e)

/-- Redis `DEL`: report whether a live entry existed and remove the key. -/
def redisDel (s : Store) (now : Int) (k : String) : Bool × Store :=
  ((redisGet s now k).isSome, s.filter (fun e => e.key != k))

/-- Redis `KEYS pre*`: the keys of all live entries starting with `pre`. -/
def redisKeys (s : Store) (now : Int) (pre : String) : List String :=
  (s.filter (fun e => entryLive now e && listStarts pre.data e.key.data)).map Entry.key

/-- Redis `MGET`: the values of the given keys, in order. -/
def mget (s : Store) (now : Int) (ks : List String) : List (Option String) :=
  ks.map (redisGet s now)

/-- The association data the store reads (`openid.association.Association`);
the serialized form is produced by an external serializer. -/
structure Association where
  handle : String
  secret : String
  issued : Int
  lifetime : Int
  assoc_type : String
deriving DecidableEq, Repr

/-- The store configuration that is semantically relevant: the key namespace
(`key_prefix`; host/port/db only select the backing connection). -/
structure RedisStore where
  keyPrefix : String
deriving DecidableEq, Repr

/-- The association key assembled by `getAssociationFilename` once the URL has
been split into `proto ++ '://' ++ rest`:
`key_prefix-proto-domain-urlhash-handlehash` (an empty/absent handle yields an
empty handle hash). -/
def assocKeyBuild (st : RedisStore) (sha1 : String → List Nat)
    (proto rest server_url handle : String) : String :=
  st.keyPrefix ++ "-" ++ proto ++ "-" ++ _filenameEscape (beforeFirstSlash rest) ++ "-" ++
    _safe64 sha1 server_url ++ "-" ++ (if handle ≠ "" then _safe64 sha1 handle else "")

/-- `RedisStore.getAssociationFilename`: raises `ValueError` when the URL has
no `'://'`, otherwise builds the association key.  A `None` handle is passed
as `''` by the callers. -/
def getAssociationFilename (st : RedisStore) (sha1 : String → List Nat)
    (server_url handle : String) : Except String String :=
  match splitFirstStr "://" server_url with
  | none => .error ("Bad server URL: " ++ server_url)
  | some (proto, rest) => .ok (assocKeyBuild st sha1 proto rest server_url handle)

/-- `RedisStore.storeAssociation`: compute
`seconds_from_now = (int(time.time()) - issued) + lifetime`, `SET` the
serialized association under its key and `EXPIRE` it after `seconds_from_now`. -/
def storeAssociation (st : RedisStore) (sha1 : String → List Nat)
    (ser : Association → String) (s : Store) (now : Int)
    (server_url : String) (association : Association) : Except String Store :=
  let seconds_from_now := (now - association.issued) + association.lifetime
  match getAssociationFilename st sha1 server_url association.handle with
  | .error e => .error e
  | .ok key_name =>
    .ok (expire (redisSet s key_name (ser association)) now key_name seconds_from_now)

/-- Insert an association into a list sorted by ascending `issued`. -/
def insertByIssued (a : Association) : List Association → List Association
  | [] => [a]
  | b :: bs => if a.issued ≤ b.issued then a :: b :: bs else b :: insertByIssued a bs

/-- Sort associations by ascending `issued`
(`associations.sort(cmp=lambda x, y: cmp(x.issued, y.issued))`). -/
def sortByIssued : List Association → List Association
  | [] => []
  | a :: rest => insertByIssued a (sortByIssued rest)

/-- `RedisStore.getAssociation`.  With a `None` handle the prefix-only key is
built, all keys starting with it are enumerated, the values fetched in bulk
and deserialized, and the most recently issued association is returned
(`associations[-1]` after the sort); with a handle (even an empty one) a
single `GET` of the exact key is performed. -/
def getAssociation (st : RedisStore) (sha1 : String → List Nat)
    (deser : String → Association) (s : Store) (now : Int)
    (server_url : String) (handle : Option String) : Except String (Option Association) :=
  match handle with
  | none =>
    match getAssociationFilename st sha1 server_url "" with
    | .error e => .error e
    | .ok key_name =>
      let assocs := redisKeys s now key_name
      if assocs.isEmpty then .ok none
      else
        let associations := ((mget s now assocs).filterMap id).map deser
        .ok (sortByIssued associations).getLast?
  | some h =>
    match getAssociationFilename st sha1 server_url h with
    | .error e => .error e
    | .ok key_name =>
      match redisGet s now key_name with
      | some association_s => .ok (some (deser association_s))
      | none => .ok none

/-- The nonce key assembled by `useNonce` once the URL has been split:
`key_prefix-nonce-%08x(timestamp)-proto-domain-urlhash-salthash`. -/
def nonceKeyBuild (st : RedisStore) (sha1 : String → List Nat)
    (proto rest server_url : String) (timestamp : Int) (salt : String) : String :=
  st.keyPrefix ++ "-nonce-" ++ pct08x timestamp ++ "-" ++ proto ++ "-" ++
    _filenameEscape (beforeFirstSlash rest) ++ "-" ++ _safe64 sha1 server_url ++ "-" ++
    _safe64 sha1 salt

/-- `RedisStore.useNonce`: reject outside the skew window without touching the
store; split a non-empty URL on `'://'` (a non-empty URL without `'://'`
raises `ValueError` from the unpacking, an empty URL uses empty
`proto`/`rest`); atomically `GETSET` the nonce key to `str(timestamp)`; a
truthy previous value means the nonce was used (`False`), otherwise `EXPIRE`
the key after `(time.time() - timestamp) + SKEW` seconds and accept. -/
def useNonce (st : RedisStore) (sha1 : String → List Nat) (SKEW : Int) (s : Store)
    (now : Int) (server_url : String) (timestamp : Int) (salt : String) :
    Except String (Bool × Store) :=
  if SKEW < |timestamp - now| then .ok (false, s)
  else
    match (if server_url = "" then some ("", "") else splitFirstStr "://" server_url) with
    | none => .error "ValueError: need more than 1 value to unpack"
    | some (proto, rest) =>
      let anonce := nonceKeyBuild st sha1 proto rest server_url timestamp salt
      let r := getset s now anonce (pyStrInt timestamp)
      if pyTruthy r.1 then .ok (false, r.2)
      else .ok (true, expire r.2 now anonce ((now - timestamp) + SKEW))

/-- The nonce sub-namespace: `key_prefix + '-nonce-'` (the `KEYS` pattern of
`cleanupNonces` is this string followed by `*`). -/
def nonceNamespace (st : RedisStore) : String :=
  st.keyPrefix ++ "-nonce-"

/-- The loop body of `cleanupNonces` over the enumerated keys: read each key,
parse its value as the stored timestamp (`int(...)`; a missing key or an
unparsable value raises), delete it and count it when it is outside the skew
window. -/
def cleanupLoop (now SKEW : Int) : List String → Store → Nat → Except String (Nat × Store)
  | [], s, expired => .ok (expired, s)
  | k :: ks, s, expired =>
    match redisGet s now k with
    | none => .error "TypeError: int() argument must be a string or a number"
    | some v =>
      match pyInt v with
      | none => .error "ValueError: invalid literal for int()"
      | some timestamp =>
        if SKEW < |timestamp - now| then
          cleanupLoop now SKEW ks (redisDel s now k).2 (expired + 1)
        else
          cleanupLoop now SKEW ks s expired

/-- `RedisStore.cleanupNonces`: enumerate `KEYS 'key_prefix-nonce-*'` and run
the cleanup loop, returning the number of deleted (expired) nonces. -/
def cleanupNonces (st : RedisStore) (s : Store) (now SKEW : Int) :
    Except String (Nat × Store) :=
  cleanupLoop now SKEW (redisKeys s now (nonceNamespace st)) s 0

/-! ### Basic lemmas about the helpers and the store model -/

theorem stringMk_ne_empty {l : List Char} (h : l ≠ []) : String.mk l ≠ "" :=
  fun he => h (congrArg String.data he)

theorem natDigitsAux_ne_nil (b n fuel : Nat) : natDigitsAux b n (fuel + 1) ≠ [] := by
  unfold natDigitsAux; split <;> simp

theorem natDigits_ne_nil (b n : Nat) : natDigits b n ≠ [] :=
  natDigitsAux_ne_nil b n n

theorem decStr_ne_empty (n : Nat) : decStr n ≠ "" := by
  apply stringMk_ne_empty
  simp [List.map_eq_nil_iff, List.reverse_eq_nil_iff, natDigits_ne_nil]

theorem pyStrInt_ne_empty (i : Int) : pyStrInt i ≠ "" := by
  unfold pyStrInt
  split
  · intro h
    have h' := congrArg String.data h
    have hd : ("-" : String).data = ['-'] := rfl
    simp [String.data_append, hd] at h'
  · exact decStr_ne_empty _

theorem listStarts_iff (p l : List Char) : listStarts p l = true ↔ p <+: l := by
  induction p generalizing l with
  | nil => simp [listStarts, List.nil_prefix]
  | cons a as ih =>
    cases l with
    | nil => simp [listStarts, List.prefix_nil]
    | cons b bs => simp [listStarts, ih, List.cons_prefix_cons]

theorem find?_key_unique {s : Store} {e : Entry} {k : String} {now : Int}
    (hnd : (s.map Entry.key).Nodup) (he : e ∈ s) (hk : e.key = k)
    (hl : entryLive now e = true) :
    s.find? (fun x => x.key == k && entryLive now x) = some e := by
  induction s with
  | nil => cases he
  | cons a rest ih =>
    rw [List.map_cons, List.nodup_cons] at hnd
    rcases List.mem_cons.mp he with rfl | hmem
    · exact List.find?_cons_of_pos _ (by simp [hk, hl])
    · have hkne : a.key ≠ k := by
        intro hh
        exact hnd.1 (hh ▸ hk ▸ List.mem_map_of_mem Entry.key hmem)
      rw [List.find?_cons_of_neg _ (by simp [hkne])]
      exact ih hnd.2 hmem

theorem redisGet_eq_of_unique {s : Store} {e : Entry} {k : String} {now : Int}
    (hnd : (s.map Entry.key).Nodup) (he : e ∈ s) (hk : e.key = k)
    (hl : entryLive now e = true) :
    redisGet s now k = some e.value := by
  unfold redisGet
  rw [find?_key_unique hnd he hk hl]
  rfl

theorem redisGet_filter_ne {k k' : String} (h : k' ≠ k) (s : Store) (now : Int) :
    redisGet (s.filter (fun e => e.key != k)) now k' = redisGet s now k' := by
  unfold redisGet
  induction s with
  | nil => rfl
  | cons a rest ih =>
    by_cases ha : a.key = k
    · have h1 : (a.key != k) = false := by simp [ha]
      have h2 : (a.key == k') = false := by simp [ha]; exact fun hh => h hh.symm
      rw [List.filter_cons, h1]
      simp only [if_neg (by simp : ¬(false = true))]
      rw [List.find?_cons_of_neg _ (by simp [h2])]
      exact ih
    · have h1 : (a.key != k) = true := by simp [ha]
      rw [List.filter_cons, h1, if_pos rfl]
      by_cases hp : (a.key == k' && entryLive now a) = true
      · rw [@List.find?_cons_of_pos _ (fun e => e.key == k' && entryLive now e) a
              (List.filter (fun e => e.key != k) rest) hp,
            @List.find?_cons_of_pos _ (fun e => e.key == k' && entryLive now e) a rest hp]
      · rw [@List.find?_cons_of_neg _ (fun e => e.key == k' && entryLive now e) a
              (List.filter (fun e => e.key != k) rest) hp,
            @List.find?_cons_of_neg _ (fun e => e.key == k' && entryLive now e) a rest hp]
        exact ih

theorem find?_none_of_keys_ne {l : Store} {k : String} {now : Int}
    (h : ∀ e ∈ l, e.key ≠ k) :
    l.find? (fun x => x.key == k && entryLive now x) = none := by
  rw [List.find?_eq_none]
  intro e he
  simp [h e he]

theorem expire_eq_of_keys_ne {l : Store} {k : String} (now ttl : Int)
    (h : ∀ e ∈ l, e.key ≠ k) :
    expire l now k ttl = l := by
  unfold expire
  induction l with
  | nil => rfl
  | cons a rest ih =>
    have ha : (a.key == k) = false := by simp [h a (List.mem_cons_self a rest)]
    simp only [List.map_cons, ha, Bool.false_and, if_neg (by simp : ¬(false = true))]
    rw [ih (fun e he => h e (List.mem_cons_of_mem a he))]

theorem mem_filter_key_ne {s : Store} {k : String} :
    ∀ e ∈ s.filter (fun x => x.key != k), e.key ≠ k := by
  intro e he
  have h2 := (List.mem_filter.mp he).2
  simpa using h2

theorem expire_replaces_head (K v : String) (l : Store) (now ttl : Int)
    (h : ∀ e ∈ l, e.key ≠ K) :
    expire (⟨K, v, none⟩ :: l) now K ttl = ⟨K, v, some (now + ttl)⟩ :: l := by
  have ht := expire_eq_of_keys_ne now ttl h
  unfold expire at ht ⊢
  rw [List.map_cons, ht]
  simp [entryLive]

theorem redisGet_head_entry (K v : String) (x : Option Int) (l : Store) (t : Int)
    (h : ∀ e ∈ l, e.key ≠ K) :
    redisGet (⟨K, v, x⟩ :: l) t K = if entryLive t ⟨K, v, x⟩ then some v else none := by
  unfold redisGet
  by_cases hl : entryLive t ⟨K, v, x⟩ = true
  · rw [List.find?_cons_of_pos _ (by simp [hl]), if_pos hl]
    rfl
  · rw [List.find?_cons_of_neg _ (by simp [hl]), find?_none_of_keys_ne h, if_neg hl]
    rfl

/-- A fresh `useNonce`: inside the skew window with no live record under the
nonce key, the call accepts and leaves exactly one record under the key, with
value `str(timestamp)` and expiry `now + ((now - timestamp) + SKEW)`. -/
theorem useNonce_fresh (st : RedisStore) (sha1 : String → List Nat) (SKEW : Int)
    (s : Store) (now : Int) (url : String) (ts : Int) (salt : String)
    (proto rest : String)
    (hsplit : (if url = "" then some ("", "") else splitFirstStr "://" url) =
      some (proto, rest))
    (hskew : |ts - now| ≤ SKEW)
    (habsent : redisGet s now (nonceKeyBuild st sha1 proto rest url ts salt) = none) :
    useNonce st sha1 SKEW s now url ts salt =
      .ok (true, ⟨nonceKeyBuild st sha1 proto rest url ts salt, pyStrInt ts,
                  some (now + ((now - ts) + SKEW))⟩ ::
        s.filter (fun e => e.key != nonceKeyBuild st sha1 proto rest url ts salt)) := by
  unfold useNonce getset
  rw [if_neg (not_lt.mpr hskew)]
  simp only [hsplit, habsent, pyTruthy, Bool.false_eq_true, if_false]
  rw [expire_replaces_head _ _ _ _ _ mem_filter_key_ne]

/-- A replayed `useNonce`: inside the skew window with a live, truthy value
under the nonce key, the call rejects; the key is overwritten with
`str(timestamp)` and its expiry is discarded (`GETSET` semantics). -/
theorem useNonce_seen (st : RedisStore) (sha1 : String → List Nat) (SKEW : Int)
    (s : Store) (now : Int) (url : String) (ts : Int) (salt : String)
    (proto rest : String) (v : String)
    (hsplit : (if url = "" then some ("", "") else splitFirstStr "://" url) =
      some (proto, rest))
    (hskew : |ts - now| ≤ SKEW)
    (hpresent : redisGet s now (nonceKeyBuild st sha1 proto rest url ts salt) = some v)
    (hv : v ≠ "") :
    useNonce st sha1 SKEW s now url ts salt =
      .ok (false, ⟨nonceKeyBuild st sha1 proto rest url ts salt, pyStrInt ts, none⟩ ::
        s.filter (fun e => e.key != nonceKeyBuild st sha1 proto rest url ts salt)) := by
  unfold useNonce getset
  rw [if_neg (not_lt.mpr hskew)]
  simp only [hsplit, hpresent, pyTruthy]
  rw [if_pos (by simp [hv])]

/-- C1: Sequential nonce single-use.  For a triple whose timestamp is within
`SKEW` of the current time and whose nonce key has no live record, the first
`useNonce` returns `true` and the record then carries value `str(timestamp)`
exactly until its expiry time `now + ((now - timestamp) + SKEW)` (after which
it is gone); while such a live record exists any call with the identical
triple returns `false` and keeps the record; once the record has expired (no
live record under the key) the identical triple is accepted as new again. -/
theorem useNonce_single_use (st : RedisStore) (sha1 : String → List Nat) (SKEW : Int)
    (s : Store) (now : Int) (url : String) (ts : Int) (salt : String)
    (proto rest : String)
    (hsplit : (if url = "" then some ("", "") else splitFirstStr "://" url) =
      some (proto, rest))
    (hskew : |ts - now| ≤ SKEW)
    (habsent : redisGet s now (nonceKeyBuild st sha1 proto rest url ts salt) = none) :
    ∃ s1, useNonce st sha1 SKEW s now url ts salt = .ok (true, s1) ∧
      (∀ t, redisGet s1 t (nonceKeyBuild st sha1 proto rest url ts salt) =
        if t < now + ((now - ts) + SKEW) then some (pyStrInt ts) else none) ∧
      (∀ s2 now2, |ts - now2| ≤ SKEW →
        redisGet s2 now2 (nonceKeyBuild st sha1 proto rest url ts salt) =
          some (pyStrInt ts) →
        ∃ s3, useNonce st sha1 SKEW s2 now2 url ts salt = .ok (false, s3) ∧
          redisGet s3 now2 (nonceKeyBuild st sha1 proto rest url ts salt) =
            some (pyStrInt ts)) ∧
      (∀ s2 now2, |ts - now2| ≤ SKEW →
        redisGet s2 now2 (nonceKeyBuild st sha1 proto rest url ts salt) = none →
        ∃ s3, useNonce st sha1 SKEW s2 now2 url ts salt = .ok (true, s3)) := by
  refine ⟨_, useNonce_fresh st sha1 SKEW s now url ts salt proto rest hsplit hskew habsent,
    ?_, ?_, ?_⟩
  · intro t
    rw [redisGet_head_entry _ _ _ _ _ mem_filter_key_ne]
    simp [entryLive]
  · intro s2 now2 hsk hp
    refine ⟨_, useNonce_seen st sha1 SKEW s2 now2 url ts salt proto rest _ hsplit hsk hp
      (pyStrInt_ne_empty ts), ?_⟩
    rw [redisGet_head_entry _ _ _ _ _ mem_filter_key_ne]
    simp [entryLive]
  · intro s2 now2 hsk habs2
    exact ⟨_, useNonce_fresh st sha1 SKEW s2 now2 url ts salt proto rest hsplit hsk habs2⟩

/-- Witness for C1: the consumer-nonce path (`server_url = ''`) at concrete
inputs. -/
theorem useNonce_single_use_w :
    ∃ s1, useNonce ⟨"p"⟩ (fun _ => []) 3600 [] 0 "" 0 "n" = .ok (true, s1) ∧
      (∀ t, redisGet s1 t (nonceKeyBuild ⟨"p"⟩ (fun _ => []) "" "" "" 0 "n") =
        if t < 0 + ((0 - 0) + 3600) then some (pyStrInt 0) else none) ∧
      (∀ s2 now2, |(0 : Int) - now2| ≤ 3600 →
        redisGet s2 now2 (nonceKeyBuild ⟨"p"⟩ (fun _ => []) "" "" "" 0 "n") =
          some (pyStrInt 0) →
        ∃ s3, useNonce ⟨"p"⟩ (fun _ => []) 3600 s2 now2 "" 0 "n" = .ok (false, s3) ∧
          redisGet s3 now2 (nonceKeyBuild ⟨"p"⟩ (fun _ => []) "" "" "" 0 "n") =
            some (pyStrInt 0)) ∧
      (∀ s2 now2, |(0 : Int) - now2| ≤ 3600 →
        redisGet s2 now2 (nonceKeyBuild ⟨"p"⟩ (fun _ => []) "" "" "" 0 "n") = none →
        ∃ s3, useNonce ⟨"p"⟩ (fun _ => []) 3600 s2 now2 "" 0 "n" = .ok (true, s3)) :=
  useNonce_single_use ⟨"p"⟩ (fun _ => []) 3600 [] 0 "" 0 "n" "" ""
    (by rfl) (by decide) (by rfl)

/-- C7: Skew rejection without side effects.  A timestamp more than `SKEW`
from the current time makes `useNonce` return `false` with the store returned
unchanged — for every store, so no store interaction takes place. -/
theorem useNonce_skew_reject (st : RedisStore) (sha1 : String → List Nat) (SKEW : Int)
    (s : Store) (now : Int) (url : String) (ts : Int) (salt : String)
    (h : SKEW < |ts - now|) :
    useNonce st sha1 SKEW s now url ts salt = .ok (false, s) := by
  unfold useNonce
  rw [if_pos h]

/-- Witness for C7 at concrete inputs (a malformed URL does not even matter:
the call rejects before looking at it). -/
theorem useNonce_skew_reject_w :
    useNonce ⟨"p"⟩ (fun _ => []) 3600 [⟨"a", "b", none⟩] 0 "http:x" 10000 "n" =
      .ok (false, [⟨"a", "b", none⟩]) :=
  useNonce_skew_reject ⟨"p"⟩ (fun _ => []) 3600 [⟨"a", "b", none⟩] 0 "http:x" 10000 "n"
    (by decide)

/-- C10: a non-empty `server_url` without `'://'` makes `useNonce` raise (the
tuple unpacking of `split` fails) whenever the timestamp passes the skew
check; the `'://'`-validation bypass only applies to the empty URL. -/
theorem useNonce_malformed_url_error (st : RedisStore) (sha1 : String → List Nat)
    (SKEW : Int) (s : Store) (now : Int) (url : String) (ts : Int) (salt : String)
    (hne : url ≠ "") (hnosep : splitFirstStr "://" url = none)
    (hskew : |ts - now| ≤ SKEW) :
    useNonce st sha1 SKEW s now url ts salt =
      .error "ValueError: need more than 1 value to unpack" := by
  unfold useNonce
  rw [if_neg (not_lt.mpr hskew), if_neg hne, hnosep]

/-- Witness for C10 at concrete inputs. -/
theorem useNonce_malformed_url_error_w :
    useNonce ⟨"p"⟩ (fun _ => []) 3600 [] 0 "http:x" 0 "n" =
      .error "ValueError: need more than 1 value to unpack" :=
  useNonce_malformed_url_error ⟨"p"⟩ (fun _ => []) 3600 [] 0 "http:x" 0 "n"
    (by decide) (by rfl) (by decide)

/-- C6: a `server_url` without `'://'` makes `getAssociationFilename`,
`storeAssociation` and `getAssociation` (with or without handle) raise the
bad-URL `ValueError`; the result is the same error for every store `s`, so no
store access or mutation takes place. -/
theorem invalidURL_before_store (st : RedisStore) (sha1 : String → List Nat)
    (ser : Association → String) (deser : String → Association) (s : Store)
    (now : Int) (url : String) (a : Association) (hdl : String) (h : Option String)
    (hnosep : splitFirstStr "://" url = none) :
    getAssociationFilename st sha1 url hdl = .error ("Bad server URL: " ++ url) ∧
    storeAssociation st sha1 ser s now url a = .error ("Bad server URL: " ++ url) ∧
    getAssociation st sha1 deser s now url h = .error ("Bad server URL: " ++ url) := by
  refine ⟨?_, ?_, ?_⟩
  · unfold getAssociationFilename
    rw [hnosep]
  · unfold storeAssociation getAssociationFilename
    rw [hnosep]
  · cases h with
    | none =>
      unfold getAssociation getAssociationFilename
      rw [hnosep]
    | some hh =>
      unfold getAssociation getAssociationFilename
      rw [hnosep]

/-- Witness for C6 at the spec's concrete malformed URL. -/
theorem invalidURL_before_store_w :
    getAssociationFilename ⟨"p"⟩ (fun _ => []) "http:www.example.com/" "h" =
      .error ("Bad server URL: " ++ "http:www.example.com/") ∧
    storeAssociation ⟨"p"⟩ (fun _ => []) (fun a => a.handle) [] 0 "http:www.example.com/"
        ⟨"h", "sec", 0, 600, "HMAC-SHA1"⟩ =
      .error ("Bad server URL: " ++ "http:www.example.com/") ∧
    getAssociation ⟨"p"⟩ (fun _ => []) (fun v => ⟨v, "sec", 0, 600, "HMAC-SHA1"⟩) [] 0
        "http:www.example.com/" none =
      .error ("Bad server URL: " ++ "http:www.example.com/") :=
  invalidURL_before_store ⟨"p"⟩ (fun _ => []) (fun a => a.handle)
    (fun v => ⟨v, "sec", 0, 600, "HMAC-SHA1"⟩) [] 0 "http:www.example.com/"
    ⟨"h", "sec", 0, 600, "HMAC-SHA1"⟩ "h" none (by rfl)

/-- C3: the code computes `seconds_from_now = (now - issued) + lifetime`, with
the sign of the `issued` offset flipped relative to the remaining lifetime
`(issued - now) + lifetime`.  At `now = 100` an association issued at `0` with
lifetime `600` is stored with expiry time `800`, and is still retrieved at
time `700` although `700 ≥ issued + lifetime = 600` — the invariant
"retrievable only while `now < issued + lifetime`" is violated. -/
theorem storeAssociation_lifetime_bug :
    storeAssociation ⟨"p"⟩ (fun _ => []) (fun a => a.handle) [] 100 "http://x"
        ⟨"h", "sec", 0, 600, "HMAC-SHA1"⟩ =
      .ok [⟨"p-http-x--", "h", some 800⟩] ∧
    getAssociation ⟨"p"⟩ (fun _ => []) (fun v => ⟨v, "sec", 0, 600, "HMAC-SHA1"⟩)
        [⟨"p-http-x--", "h", some 800⟩] 700 "http://x" (some "h") =
      .ok (some ⟨"h", "sec", 0, 600, "HMAC-SHA1"⟩) ∧
    ¬((700 : Int) < 0 + 600) :=
  ⟨by rfl, by rfl, by decide⟩

/-- Serialization of `n` `useNonce` calls with the identical triple at one
time instant: the Redis `GETSET` claim is atomic, so any interleaving of `n`
concurrent callers is some serial order of their exchanges.  Returns the
observed results in order (an exception aborts the run). -/
def useNonceRuns (st : RedisStore) (sha1 : String → List Nat) (SKEW : Int) (s : Store)
    (now : Int) (url : String) (ts : Int) (salt : String) : Nat → List Bool × Store
  | 0 => ([], s)
  | n + 1 =>
    match useNonce st sha1 SKEW s now url ts salt with
    | .ok (b, s1) =>
      let r := useNonceRuns st sha1 SKEW s1 now url ts salt n
      (b :: r.1, r.2)
    | .error _ => ([], s)

/-- Counterexample to C2: at the skew boundary (`timestamp = now + SKEW`,
accepted by the `abs(...) > SKEW` check) the computed ttl
`(now - timestamp) + SKEW` is `0`, so the claimed record expires immediately
and two serialized calls with the identical triple both return `true`. -/
theorem useNonce_two_trues_cex :
    (useNonceRuns ⟨"p"⟩ (fun _ => []) 3600 [] 0 "" 3600 "n" 2).1 = [true, true] := by
  decide

theorem useNonceRuns_all_false (st : RedisStore) (sha1 : String → List Nat)
    (SKEW : Int) (now : Int) (url : String) (ts : Int) (salt : String)
    (proto rest : String)
    (hsplit : (if url = "" then some ("", "") else splitFirstStr "://" url) =
      some (proto, rest))
    (hskew : |ts - now| ≤ SKEW) :
    ∀ (m : Nat) (s2 : Store),
      redisGet s2 now (nonceKeyBuild st sha1 proto rest url ts salt) =
        some (pyStrInt ts) →
      ((useNonceRuns st sha1 SKEW s2 now url ts salt m).1.count true) = 0 := by
  intro m
  induction m with
  | zero => intro s2 _; rfl
  | succ k ih =>
    intro s2 h
    simp only [useNonceRuns]
    rw [useNonce_seen st sha1 SKEW s2 now url ts salt proto rest _ hsplit hskew h
      (pyStrInt_ne_empty ts)]
    simp only [List.count_cons]
    have hg : redisGet
        (⟨nonceKeyBuild st sha1 proto rest url ts salt, pyStrInt ts, none⟩ ::
          s2.filter (fun e => e.key != nonceKeyBuild st sha1 proto rest url ts salt))
        now (nonceKeyBuild st sha1 proto rest url ts salt) = some (pyStrInt ts) := by
      rw [redisGet_head_entry _ _ _ _ _ mem_filter_key_ne]
      simp [entryLive]
    rw [ih _ hg]
    simp

/-- C2 (amended): in the serialized-atomic model, when the triple is within
skew, the computed ttl `(now - timestamp) + SKEW` is strictly positive, and no
live record exists under the nonce key, exactly one of `n ≥ 1` calls at the
same instant with the identical triple observes `true`. -/
theorem useNonce_serialized_exactly_one (st : RedisStore) (sha1 : String → List Nat)
    (SKEW : Int) (s : Store) (now : Int) (url : String) (ts : Int) (salt : String)
    (proto rest : String) (n : Nat)
    (hsplit : (if url = "" then some ("", "") else splitFirstStr "://" url) =
      some (proto, rest))
    (hskew : |ts - now| ≤ SKEW)
    (httl : 0 < (now - ts) + SKEW)
    (habsent : redisGet s now (nonceKeyBuild st sha1 proto rest url ts salt) = none)
    (hn : 0 < n) :
    ((useNonceRuns st sha1 SKEW s now url ts salt n).1.count true) = 1 := by
  cases n with
  | zero => cases hn
  | succ m =>
    simp only [useNonceRuns]
    rw [useNonce_fresh st sha1 SKEW s now url ts salt proto rest hsplit hskew habsent]
    simp only [List.count_cons]
    have hg : redisGet
        (⟨nonceKeyBuild st sha1 proto rest url ts salt, pyStrInt ts,
            some (now + ((now - ts) + SKEW))⟩ ::
          s.filter (fun e => e.key != nonceKeyBuild st sha1 proto rest url ts salt))
        now (nonceKeyBuild st sha1 proto rest url ts salt) = some (pyStrInt ts) := by
      rw [redisGet_head_entry _ _ _ _ _ mem_filter_key_ne]
      have : entryLive now ⟨nonceKeyBuild st sha1 proto rest url ts salt, pyStrInt ts,
          some (now + ((now - ts) + SKEW))⟩ = true := by
        simp [entryLive]
        omega
      rw [if_pos this]
    rw [useNonceRuns_all_false st sha1 SKEW now url ts salt proto rest hsplit hskew m _ hg]
    simp

/-- Witness for the amended C2 at concrete inputs: three serialized calls,
one `true`. -/
theorem useNonce_serialized_exactly_one_w :
    ((useNonceRuns ⟨"p"⟩ (fun _ => []) 3600 [] 0 "" 0 "n" 3).1.count true) = 1 :=
  useNonce_serialized_exactly_one ⟨"p"⟩ (fun _ => []) 3600 [] 0 "" 0 "n" "" "" 3
    (by rfl) (by decide) (by decide) (by rfl) (by decide)

theorem append_cons_eq_append_cons {c : Char} :
    ∀ (q p x y : List Char), c ∉ q → p ++ c :: x = q ++ c :: y →
      p = q ∨ q ++ [c] <+: p := by
  intro q
  induction q with
  | nil =>
    intro p x y _ h
    cases p with
    | nil => exact Or.inl rfl
    | cons e p' =>
      right
      rw [List.nil_append] at h
      rw [List.cons_append] at h
      injection h with h1 _
      simp [h1, List.cons_prefix_cons]
  | cons d q' ih =>
    intro p x y hc h
    have hcd : c ≠ d := fun hh => hc (hh ▸ List.mem_cons_self d q')
    cases p with
    | nil =>
      rw [List.nil_append, List.cons_append] at h
      injection h with h1 _
      exact absurd h1 hcd
    | cons e p' =>
      rw [List.cons_append, List.cons_append] at h
      injection h with h1 h2
      rcases ih p' x y (fun hm => hc (List.mem_cons_of_mem d hm)) h2 with h3 | h3
      · exact Or.inl (by rw [h1, h3])
      · right
        rw [h1, List.cons_append]
        simp [List.cons_prefix_cons, h3]

/-- Counterexample to C5: the scheme is spliced into the association key
unescaped, so `server_url = 'nonce://a'` puts the association key inside the
nonce sub-namespace `key_prefix + '-nonce-'` (and the `cleanupNonces`
pattern matches it). -/
theorem assocKey_nonce_collision_cex :
    getAssociationFilename ⟨"p"⟩ (fun _ => []) "nonce://a" "h" =
      .ok (nonceNamespace ⟨"p"⟩ ++ "a--") ∧
    listStarts (nonceNamespace ⟨"p"⟩).data (nonceNamespace ⟨"p"⟩ ++ "a--").data = true :=
  ⟨by rfl, by decide⟩

/-- C5 (amended): for every `server_url` whose scheme (the text before the
first `'://'`) is neither the literal `"nonce"` nor an extension of
`"nonce-"`, the association key never lies in the nonce sub-namespace
`key_prefix + '-nonce-'`, so association keys cannot collide with nonce keys
or with the `cleanupNonces` scan. -/
theorem assocKey_outside_nonce_namespace (st : RedisStore) (sha1 : String → List Nat)
    (url hdl proto rest : String)
    (hsplit : splitFirstStr "://" url = some (proto, rest))
    (hp1 : proto ≠ "nonce")
    (hp2 : ¬(("nonce-" : String).data <+: proto.data)) :
    ∀ t, getAssociationFilename st sha1 url hdl ≠ .ok (nonceNamespace st ++ t) := by
  intro t h
  unfold getAssociationFilename at h
  rw [hsplit] at h
  have hkey : assocKeyBuild st sha1 proto rest url hdl = nonceNamespace st ++ t := by
    injection h
  have hd := congrArg String.data hkey
  have hdash : ("-" : String).data = ['-'] := rfl
  have hnn : ("-nonce-" : String).data = '-' :: ("nonce" : String).data ++ ['-'] := rfl
  simp only [assocKeyBuild, nonceNamespace, String.data_append, hdash, hnn,
    List.append_assoc, List.cons_append, List.nil_append] at hd
  have h3 := List.append_cancel_left hd
  injection h3 with _ h4
  have h5 : proto.data ++ '-' ::
      ((_filenameEscape (beforeFirstSlash rest)).data ++ '-' ::
        ((_safe64 sha1 url).data ++ '-' ::
          (if hdl ≠ "" then _safe64 sha1 hdl else "").data)) =
      ("nonce" : String).data ++ '-' :: t.data := h4
  rcases append_cons_eq_append_cons ("nonce" : String).data proto.data _ _
      (by decide) h5 with h6 | h6
  · exact hp1 (String.ext h6)
  · exact hp2 h6

/-- Witness for the amended C5 at concrete inputs. -/
theorem assocKey_outside_nonce_namespace_w :
    getAssociationFilename ⟨"p"⟩ (fun _ => []) "http://x" "h" ≠
      .ok (nonceNamespace ⟨"p"⟩ ++ "x--") :=
  assocKey_outside_nonce_namespace ⟨"p"⟩ (fun _ => []) "http://x" "h" "http" "x"
    (by rfl) (by decide) (by decide) "x--"

theorem natDigitsAux_eq_natDigits (b : Nat) (hb : 2 ≤ b) :
    ∀ n f, n < f → natDigitsAux b n f = natDigits b n := by
  intro n
  induction n using Nat.strong_induction_on with
  | _ n ih =>
    intro f hf
    cases f with
    | zero => omega
    | succ f' =>
      unfold natDigits
      simp only [natDigitsAux]
      by_cases h : n < b
      · rw [if_pos h, if_pos h]
      · rw [if_neg h, if_neg h]
        have hdiv : n / b < n := Nat.div_lt_self (by omega) (by omega)
        congr 1
        rw [ih (n / b) hdiv f' (by omega), ih (n / b) hdiv n (by omega)]

theorem natDigits_of_lt (b n : Nat) (h : n < b) : natDigits b n = [n] := by
  unfold natDigits
  simp only [natDigitsAux]
  rw [if_pos h]

theorem natDigits_of_ge (b n : Nat) (hb : 2 ≤ b) (h : ¬n < b) :
    natDigits b n = n % b :: natDigits b (n / b) := by
  conv_lhs => unfold natDigits; simp only [natDigitsAux]
  rw [if_neg h]
  congr 1
  exact natDigitsAux_eq_natDigits b hb (n / b) n
    (Nat.lt_of_lt_of_le (Nat.div_lt_self (by omega) (by omega)) (Nat.le_refl n))

/-- Modelled from the claim (C9): big-endian uppercase hexadecimal rendering
of an ordinal value, written independently of the code's little-endian digit
accumulator. -/
def hexUpperSpec (n : Nat) : List Char :=
  if n < 16 then [hexDigitUpper n]
  else hexUpperSpec (n / 16) ++ [hexDigitUpper (n % 16)]
decreasing_by exact Nat.div_lt_self (by omega) (by omega)

theorem hexUpperSpec_eq (n : Nat) :
    hexUpperSpec n = (natDigits 16 n).reverse.map hexDigitUpper := by
  induction n using Nat.strong_induction_on with
  | _ n ih =>
    rw [hexUpperSpec]
    by_cases h : n < 16
    · rw [if_pos h, natDigits_of_lt 16 n h]
      rfl
    · rw [if_neg h, natDigits_of_ge 16 n (by omega) h, List.reverse_cons, List.map_append,
        ih (n / 16) (Nat.div_lt_self (by omega) (by omega))]
      rfl

theorem padZero_two (l : List Char) (h : l ≠ []) :
    padZero 2 l = if l.length < 2 then '0' :: l else l := by
  cases l with
  | nil => exact absurd rfl h
  | cons a t =>
    cases t with
    | nil => rfl
    | cons b t' =>
      have h0 : 2 - (a :: b :: t').length = 0 := by simp
      rw [if_neg (by simp)]
      unfold padZero
      rw [h0]
      rfl

/-- Modelled from the claim (C9), amended: a safe character passes through
unchanged, any other character becomes `'_'` followed by the uppercase
hexadecimal of its ordinal value zero-padded to a minimum of two digits. -/
def escapeSpecChar (c : Char) : String :=
  if _isFilenameSafe c then String.mk [c]
  else "_" ++ String.mk (if (hexUpperSpec c.toNat).length < 2
    then '0' :: hexUpperSpec c.toNat else hexUpperSpec c.toNat)

/-- Modelled from the claim (C9): the escaped string is the concatenation of
the per-character encodings in order. -/
def escapeSpecC9 : List Char → String
  | [] => ""
  | c :: cs => escapeSpecChar c ++ escapeSpecC9 cs

theorem pct02X_eq_spec (n : Nat) :
    pct02X n = String.mk (if (hexUpperSpec n).length < 2
      then '0' :: hexUpperSpec n else hexUpperSpec n) := by
  unfold pct02X
  rw [hexUpperSpec_eq]
  congr 1
  exact padZero_two _ (by simp [natDigits_ne_nil])

theorem foldl_append_str : ∀ (l : List String) (s : String),
    l.foldl (fun a b => a ++ b) s = s ++ l.foldl (fun a b => a ++ b) "" := by
  intro l
  induction l with
  | nil =>
    intro s
    simp [String.append_empty]
  | cons a t ih =>
    intro s
    simp only [List.foldl_cons]
    rw [ih (s ++ a), ih ("" ++ a), String.empty_append, String.append_assoc]

theorem join_cons (a : String) (l : List String) :
    String.join (a :: l) = a ++ String.join l := by
  show (a :: l).foldl (fun a b => a ++ b) "" = a ++ l.foldl (fun a b => a ++ b) ""
  simp only [List.foldl_cons]
  rw [foldl_append_str l ("" ++ a), String.empty_append]

/-- Counterexample to C9: for a code point above `0xFF` the `'_%02X'`
replacement has more than two hex digits: the cyrillic letter `U+0416` escapes
to `'_416'`, which is not `'_'` followed by any two-character string. -/
theorem filenameEscape_two_digit_cex :
    _filenameEscape (String.mk [Char.ofNat 1046]) = "_416" ∧
    ¬∃ XX : String, XX.length = 2 ∧
      _filenameEscape (String.mk [Char.ofNat 1046]) = "_" ++ XX := by
  refine ⟨by rfl, ?_⟩
  rintro ⟨XX, h2, he⟩
  have h1 : ("_416" : String) = "_" ++ XX := he
  have h3 := congrArg String.length h1
  rw [String.length_append, h2] at h3
  have h4 : ("_416" : String).length = 4 := rfl
  have h5 : ("_" : String).length = 1 := rfl
  rw [h4, h5] at h3
  omega

/-- C9 (amended): `_filenameEscape` equals the claim's per-character encoding,
with the hexadecimal replacement zero-padded to a minimum of (rather than
exactly) two digits: safe characters pass through, every other character
becomes `'_'` followed by the uppercase hex of its ordinal, concatenated in
order. -/
theorem filenameEscape_refines_spec (s : String) :
    _filenameEscape s = escapeSpecC9 s.data := by
  unfold _filenameEscape
  have hmain : ∀ l : List Char, String.join (l.map (fun c =>
      if _isFilenameSafe c then String.mk [c] else "_" ++ pct02X c.toNat)) =
      escapeSpecC9 l := by
    intro l
    induction l with
    | nil => rfl
    | cons c t ih =>
      rw [List.map_cons, join_cons, ih]
      show _ = escapeSpecC9 (c :: t)
      simp only [escapeSpecC9]
      congr 1
      unfold escapeSpecChar
      by_cases h : _isFilenameSafe c = true
      · rw [if_pos h, if_pos h]
      · rw [if_neg h, if_neg h, pct02X_eq_spec]
  exact hmain s.data

theorem redisKeys_get_some {s : Store} {now : Int} {pre k : String}
    (h : k ∈ redisKeys s now pre) : ∃ v, redisGet s now k = some v := by
  unfold redisKeys at h
  obtain ⟨e, he, hek⟩ := List.mem_map.mp h
  have hmem := List.mem_filter.mp he
  have hlive : entryLive now e = true := by
    have h2 := hmem.2
    simp only [Bool.and_eq_true] at h2
    exact h2.1
  have hsome : (s.find? (fun x => x.key == k && entryLive now x)).isSome = true := by
    rw [List.find?_isSome]
    exact ⟨e, hmem.1, by simp [hek, hlive]⟩
  obtain ⟨e', he'⟩ := Option.isSome_iff_exists.mp hsome
  exact ⟨e'.value, by unfold redisGet; rw [he']; rfl⟩

theorem mem_insertByIssued (a x : Association) (l : List Association) :
    x ∈ insertByIssued a l ↔ x = a ∨ x ∈ l := by
  induction l with
  | nil => simp [insertByIssued]
  | cons b t ih =>
    unfold insertByIssued
    by_cases h : a.issued ≤ b.issued
    · rw [if_pos h]
      simp [List.mem_cons]
    · rw [if_neg h]
      simp only [List.mem_cons, ih]
      tauto

theorem insertByIssued_ne_nil (a : Association) (l : List Association) :
    insertByIssued a l ≠ [] := by
  cases l with
  | nil => simp [insertByIssued]
  | cons b t =>
    unfold insertByIssued
    split <;> simp

theorem sortByIssued_ne_nil {l : List Association} (h : l ≠ []) :
    sortByIssued l ≠ [] := by
  cases l with
  | nil => exact absurd rfl h
  | cons a t => exact insertByIssued_ne_nil a (sortByIssued t)

theorem mem_sortByIssued (x : Association) (l : List Association) :
    x ∈ sortByIssued l ↔ x ∈ l := by
  induction l with
  | nil => simp [sortByIssued]
  | cons a t ih =>
    simp only [sortByIssued, mem_insertByIssued, ih, List.mem_cons]

theorem pairwise_insertByIssued (a : Association) (l : List Association)
    (h : l.Pairwise (fun x y => x.issued ≤ y.issued)) :
    (insertByIssued a l).Pairwise (fun x y => x.issued ≤ y.issued) := by
  induction l with
  | nil => simp [insertByIssued]
  | cons b t ih =>
    rw [List.pairwise_cons] at h
    unfold insertByIssued
    by_cases hle : a.issued ≤ b.issued
    · rw [if_pos hle, List.pairwise_cons]
      refine ⟨?_, List.pairwise_cons.mpr h⟩
      intro y hy
      rcases List.mem_cons.mp hy with rfl | hy'
      · exact hle
      · exact le_trans hle (h.1 y hy')
    · rw [if_neg hle, List.pairwise_cons]
      refine ⟨?_, ih h.2⟩
      intro y hy
      rcases (mem_insertByIssued a y t).mp hy with rfl | hy'
      · omega
      · exact h.1 y hy'

theorem pairwise_sortByIssued (l : List Association) :
    (sortByIssued l).Pairwise (fun x y => x.issued ≤ y.issued) := by
  induction l with
  | nil => simp [sortByIssued]
  | cons a t ih => exact pairwise_insertByIssued a _ ih

theorem le_getLast_of_pairwise : ∀ (M : List Association),
    M.Pairwise (fun x y => x.issued ≤ y.issued) →
    ∀ (h : M ≠ []) (b : Association), b ∈ M → b.issued ≤ (M.getLast h).issued := by
  intro M
  induction M with
  | nil => intro _ h; exact absurd rfl h
  | cons a t ih =>
    intro hp h b hb
    rw [List.pairwise_cons] at hp
    cases t with
    | nil =>
      rcases List.mem_cons.mp hb with rfl | hb'
      · exact le_refl _
      · cases hb'
    | cons c t' =>
      have hne : c :: t' ≠ [] := by simp
      rw [List.getLast_cons hne]
      rcases List.mem_cons.mp hb with rfl | hb'
      · exact hp.1 _ (List.getLast_mem hne)
      · exact ih hp.2 hne b hb'

theorem getAssociation_none_eq (st : RedisStore) (sha1 : String → List Nat)
    (deser : String → Association) (s : Store) (now : Int) (url : String)
    (proto rest : String)
    (hsplit : splitFirstStr "://" url = some (proto, rest)) :
    getAssociation st sha1 deser s now url none =
      (if (redisKeys s now (assocKeyBuild st sha1 proto rest url "")).isEmpty then .ok none
       else .ok (sortByIssued (((mget s now
          (redisKeys s now (assocKeyBuild st sha1 proto rest url ""))).filterMap id).map
            deser)).getLast?) := by
  unfold getAssociation getAssociationFilename
  rw [hsplit]

/-- Counterexample to C4: `getAssociation` only enumerates when `handle is
None`; an empty-string handle takes the point-lookup branch with the
prefix-only key and misses the stored association that the `None` branch
finds. -/
theorem getAssociation_empty_handle_cex :
    getAssociation ⟨"p"⟩ (fun _ => [0]) (fun v => ⟨v, "sec", 5, 600, "HMAC-SHA1"⟩)
        [⟨"p-http-x-AA-AA", "h", none⟩] 0 "http://x" (some "") = .ok none ∧
    getAssociation ⟨"p"⟩ (fun _ => [0]) (fun v => ⟨v, "sec", 5, 600, "HMAC-SHA1"⟩)
        [⟨"p-http-x-AA-AA", "h", none⟩] 0 "http://x" none =
      .ok (some ⟨"h", "sec", 5, 600, "HMAC-SHA1"⟩) :=
  ⟨by rfl, by rfl⟩

/-- C4 (amended, restricted to a `None` handle): `getAssociation` with no
handle enumerates all live keys starting with the prefix-only key, fetches
and deserializes their values, and returns an association of maximal `issued`
among them; it returns `None` when no keys match. -/
theorem getAssociation_none_max_issued (st : RedisStore) (sha1 : String → List Nat)
    (deser : String → Association) (s : Store) (now : Int) (url : String)
    (proto rest : String)
    (hsplit : splitFirstStr "://" url = some (proto, rest)) :
    (redisKeys s now (assocKeyBuild st sha1 proto rest url "") = [] →
      getAssociation st sha1 deser s now url none = .ok none) ∧
    (redisKeys s now (assocKeyBuild st sha1 proto rest url "") ≠ [] →
      ∃ a, getAssociation st sha1 deser s now url none = .ok (some a) ∧
        a ∈ ((mget s now (redisKeys s now
          (assocKeyBuild st sha1 proto rest url ""))).filterMap id).map deser ∧
        ∀ b ∈ ((mget s now (redisKeys s now
          (assocKeyBuild st sha1 proto rest url ""))).filterMap id).map deser,
          b.issued ≤ a.issued) := by
  rw [getAssociation_none_eq st sha1 deser s now url proto rest hsplit]
  constructor
  · intro hk
    rw [if_pos (List.isEmpty_iff.mpr hk)]
  · intro hk
    rw [if_neg (by simp [List.isEmpty_iff, hk])]
    obtain ⟨k0, hk0⟩ := List.exists_mem_of_ne_nil _ hk
    obtain ⟨v, hv⟩ := redisKeys_get_some hk0
    have hvmem : v ∈ (mget s now (redisKeys s now
        (assocKeyBuild st sha1 proto rest url ""))).filterMap id := by
      rw [List.mem_filterMap]
      exact ⟨some v, by rw [← hv]; exact List.mem_map_of_mem (redisGet s now) hk0, rfl⟩
    have hALne : ((mget s now (redisKeys s now
        (assocKeyBuild st sha1 proto rest url ""))).filterMap id).map deser ≠ [] :=
      List.ne_nil_of_mem (List.mem_map_of_mem deser hvmem)
    have hMne := sortByIssued_ne_nil hALne
    refine ⟨(sortByIssued (((mget s now (redisKeys s now
        (assocKeyBuild st sha1 proto rest url ""))).filterMap id).map deser)).getLast hMne,
      ?_, ?_, ?_⟩
    · rw [List.getLast?_eq_getLast _ hMne]
    · exact (mem_sortByIssued _ _).mp (List.getLast_mem hMne)
    · intro b hb
      exact le_getLast_of_pairwise _ (pairwise_sortByIssued _) hMne b
        ((mem_sortByIssued b _).mpr hb)

/-- Witness for the amended C4 at concrete inputs, exercising both branches:
an empty store yields `None`, and the counterexample's store yields the only
(hence maximal-`issued`) association. -/
theorem getAssociation_none_max_issued_w :
    getAssociation ⟨"p"⟩ (fun _ => [0]) (fun v => ⟨v, "sec", 5, 600, "HMAC-SHA1"⟩)
        [] 0 "http://x" none = .ok none ∧
    ∃ a, getAssociation ⟨"p"⟩ (fun _ => [0]) (fun v => ⟨v, "sec", 5, 600, "HMAC-SHA1"⟩)
        [⟨"p-http-x-AA-AA", "h", none⟩] 0 "http://x" none = .ok (some a) ∧
      a ∈ ((mget [⟨"p-http-x-AA-AA", "h", none⟩] 0 (redisKeys [⟨"p-http-x-AA-AA", "h", none⟩] 0
        (assocKeyBuild ⟨"p"⟩ (fun _ => [0]) "http" "x" "http://x" ""))).filterMap id).map
          (fun v => (⟨v, "sec", 5, 600, "HMAC-SHA1"⟩ : Association)) ∧
      ∀ b ∈ ((mget [⟨"p-http-x-AA-AA", "h", none⟩] 0 (redisKeys [⟨"p-http-x-AA-AA", "h", none⟩] 0
        (assocKeyBuild ⟨"p"⟩ (fun _ => [0]) "http" "x" "http://x" ""))).filterMap id).map
          (fun v => (⟨v, "sec", 5, 600, "HMAC-SHA1"⟩ : Association)),
        b.issued ≤ a.issued :=
  ⟨(getAssociation_none_max_issued ⟨"p"⟩ (fun _ => [0])
      (fun v => ⟨v, "sec", 5, 600, "HMAC-SHA1"⟩) [] 0 "http://x" "http" "x" (by rfl)).1
      (by rfl),
   (getAssociation_none_max_issued ⟨"p"⟩ (fun _ => [0])
      (fun v => ⟨v, "sec", 5, 600, "HMAC-SHA1"⟩) [⟨"p-http-x-AA-AA", "h", none⟩] 0 "http://x"
      "http" "x" (by rfl)).2 (by decide)⟩

/-- Whether the cleanup loop deletes key `k` of store `s`: its live value
parses as a timestamp outside the skew window. -/
def delQ (s : Store) (now SKEW : Int) (k : String) : Bool :=
  match redisGet s now k with
  | none => false
  | some v =>
    match pyInt v with
    | none => false
    | some t => SKEW < |t - now|

/-- A live entry in the nonce sub-namespace whose stored timestamp is outside
the skew window (what `cleanupNonces` is meant to delete). -/
def expiredNonceEntry (st : RedisStore) (now SKEW : Int) (e : Entry) : Bool :=
  entryLive now e && listStarts (nonceNamespace st).data e.key.data &&
    (match pyInt e.value with
     | none => false
     | some t => SKEW < |t - now|)

theorem cleanupLoop_spec (now SKEW : Int) :
    ∀ (ks : List String) (s : Store) (expired : Nat),
      ks.Nodup →
      (∀ k ∈ ks, ∃ v t, redisGet s now k = some v ∧ pyInt v = some t) →
      cleanupLoop now SKEW ks s expired =
        .ok (expired + (ks.filter (fun k => delQ s now SKEW k)).length,
             s.filter (fun e => !(ks.contains e.key && delQ s now SKEW e.key))) := by
  intro ks
  induction ks with
  | nil =>
    intro s expired _ _
    simp [cleanupLoop, List.contains_nil, List.filter_true]
  | cons k ks ih =>
    intro s expired hnd hget
    obtain ⟨v, t, hv, ht⟩ := hget k (List.mem_cons_self k ks)
    rw [List.nodup_cons] at hnd
    have hdq : delQ s now SKEW k = decide (SKEW < |t - now|) := by
      unfold delQ
      simp only [hv, ht]
    simp only [cleanupLoop, hv, ht]
    by_cases hexp : SKEW < |t - now|
    · rw [if_pos hexp]
      have hget' : ∀ k' ∈ ks, ∃ v' t',
          redisGet (redisDel s now k).2 now k' = some v' ∧ pyInt v' = some t' := by
        intro k' hk'
        have hne : k' ≠ k := fun hh => hnd.1 (hh ▸ hk')
        obtain ⟨v', t', hv', ht'⟩ := hget k' (List.mem_cons_of_mem k hk')
        exact ⟨v', t', by unfold redisDel; rw [redisGet_filter_ne hne]; exact hv', ht'⟩
      rw [ih _ _ hnd.2 hget']
      have hdel : ∀ k' ∈ ks, delQ (redisDel s now k).2 now SKEW k' = delQ s now SKEW k' := by
        intro k' hk'
        have hne : k' ≠ k := fun hh => hnd.1 (hh ▸ hk')
        unfold delQ redisDel
        rw [redisGet_filter_ne hne]
      have hcount : (ks.filter (fun x => delQ (redisDel s now k).2 now SKEW x)).length =
          (ks.filter (fun x => delQ s now SKEW x)).length := by
        rw [List.filter_congr hdel]
      have hkfilter : ((k :: ks).filter (fun x => delQ s now SKEW x)).length =
          (ks.filter (fun x => delQ s now SKEW x)).length + 1 := by
        rw [List.filter_cons, hdq, if_pos (by simp [hexp])]
        rfl
      have hstore : ((redisDel s now k).2.filter
            (fun e => !(ks.contains e.key && delQ (redisDel s now k).2 now SKEW e.key))) =
          s.filter (fun e => !((k :: ks).contains e.key && delQ s now SKEW e.key)) := by
        unfold redisDel
        rw [List.filter_filter]
        apply List.filter_congr
        intro e _
        by_cases hek : e.key = k
        · rw [hek]
          simp [List.contains_cons, hdq, hexp]
        · have hdel' : delQ (s.filter (fun x => x.key != k)) now SKEW e.key =
              delQ s now SKEW e.key := by
            unfold delQ
            rw [redisGet_filter_ne hek]
          rw [hdel']
          simp [List.contains_cons, hek]
      rw [hcount, hkfilter, hstore]
      have : expired + 1 + (ks.filter (fun x => delQ s now SKEW x)).length =
          expired + ((ks.filter (fun x => delQ s now SKEW x)).length + 1) := by omega
      rw [this]
    · rw [if_neg hexp]
      rw [ih _ _ hnd.2 (fun k' hk' => hget k' (List.mem_cons_of_mem k hk'))]
      have hkfilter : ((k :: ks).filter (fun x => delQ s now SKEW x)) =
          ks.filter (fun x => delQ s now SKEW x) := by
        rw [List.filter_cons, hdq, if_neg (by simp [hexp])]
      have hstore : (s.filter (fun e => !(ks.contains e.key && delQ s now SKEW e.key))) =
          s.filter (fun e => !((k :: ks).contains e.key && delQ s now SKEW e.key)) := by
        apply List.filter_congr
        intro e _
        by_cases hek : e.key = k
        · rw [hek]
          simp [List.contains_cons, hdq, hexp]
        · simp [List.contains_cons, hek]
      rw [hkfilter, hstore]

theorem redisKeys_contains_eq (pre : String) (s : Store) (now : Int)
    (hnd : (s.map Entry.key).Nodup) :
    ∀ e ∈ s, (redisKeys s now pre).contains e.key =
      (entryLive now e && listStarts pre.data e.key.data) := by
  intro e he
  by_cases hq : (entryLive now e && listStarts pre.data e.key.data) = true
  · rw [hq]
    have hm : e ∈ s.filter (fun x => entryLive now x && listStarts pre.data x.key.data) :=
      List.mem_filter.mpr ⟨he, hq⟩
    have hmem : e.key ∈ redisKeys s now pre := by
      unfold redisKeys
      exact List.mem_map_of_mem Entry.key hm
    simpa using hmem
  · have hnotmem : e.key ∉ redisKeys s now pre := by
      intro hmem
      unfold redisKeys at hmem
      obtain ⟨e', he', hk'⟩ := List.mem_map.mp hmem
      obtain ⟨hes', hcond'⟩ := List.mem_filter.mp he'
      have heq : e' = e := List.inj_on_of_nodup_map hnd hes' he hk'
      rw [heq] at hcond'
      exact hq hcond'
    rw [Bool.eq_false_iff.mpr hq]
    simpa using hnotmem

theorem delQ_eq_match {s : Store} {now SKEW : Int} {e : Entry}
    (hnd : (s.map Entry.key).Nodup) (he : e ∈ s) (hl : entryLive now e = true) :
    delQ s now SKEW e.key =
      (match pyInt e.value with
       | none => false
       | some t => decide (SKEW < |t - now|)) := by
  unfold delQ
  simp only [redisGet_eq_of_unique hnd he rfl hl]

theorem contains_delQ_eq_expired (st : RedisStore) (s : Store) (now SKEW : Int)
    (hnd : (s.map Entry.key).Nodup) :
    ∀ e ∈ s, ((redisKeys s now (nonceNamespace st)).contains e.key &&
      delQ s now SKEW e.key) = expiredNonceEntry st now SKEW e := by
  intro e he
  rw [redisKeys_contains_eq (nonceNamespace st) s now hnd e he]
  unfold expiredNonceEntry
  by_cases hl : entryLive now e = true
  · by_cases hst : listStarts (nonceNamespace st).data e.key.data = true
    · rw [delQ_eq_match hnd he hl, hl, hst]
    · rw [hl, Bool.eq_false_iff.mpr hst]
      simp
  · rw [Bool.eq_false_iff.mpr hl]
    simp

theorem delQ_and_cond_eq_expired (st : RedisStore) (s : Store) (now SKEW : Int)
    (hnd : (s.map Entry.key).Nodup) :
    ∀ e ∈ s, (delQ s now SKEW e.key &&
      (entryLive now e && listStarts (nonceNamespace st).data e.key.data)) =
      expiredNonceEntry st now SKEW e := by
  intro e he
  unfold expiredNonceEntry
  by_cases hl : entryLive now e = true
  · by_cases hst : listStarts (nonceNamespace st).data e.key.data = true
    · rw [delQ_eq_match hnd he hl, hl, hst]
      cases hx : (match pyInt e.value with
        | none => false
        | some t => decide (SKEW < |t - now|)) <;> simp [hx]
    · rw [hl, Bool.eq_false_iff.mpr hst]
      simp
  · rw [Bool.eq_false_iff.mpr hl]
    simp

/-- C8: `cleanupNonces` enumerates exactly the live keys under the nonce
sub-namespace `key_prefix + '-nonce-'`, deletes precisely those entries whose
stored timestamp value lies outside the skew window, leaves every other
record untouched, and returns the exact number of deletions.  Hypotheses:
keys are unique (Redis guarantees this) and every live value in the nonce
sub-namespace parses as an integer (otherwise `int(...)` raises). -/
theorem cleanupNonces_spec (st : RedisStore) (s : Store) (now SKEW : Int)
    (hnd : (s.map Entry.key).Nodup)
    (hparse : ∀ e ∈ s, entryLive now e = true →
      listStarts (nonceNamespace st).data e.key.data = true →
      (pyInt e.value).isSome = true) :
    cleanupNonces st s now SKEW =
      .ok ((s.filter (expiredNonceEntry st now SKEW)).length,
           s.filter (fun e => !expiredNonceEntry st now SKEW e)) := by
  unfold cleanupNonces
  have hksnd : (redisKeys s now (nonceNamespace st)).Nodup := by
    unfold redisKeys
    exact List.Nodup.sublist (List.Sublist.map Entry.key (List.filter_sublist s)) hnd
  have hget : ∀ k ∈ redisKeys s now (nonceNamespace st),
      ∃ v t, redisGet s now k = some v ∧ pyInt v = some t := by
    intro k hk
    unfold redisKeys at hk
    obtain ⟨e, he, hek⟩ := List.mem_map.mp hk
    obtain ⟨hes, hcond⟩ := List.mem_filter.mp he
    rw [Bool.and_eq_true] at hcond
    have hval : redisGet s now k = some e.value := redisGet_eq_of_unique hnd hes hek hcond.1
    obtain ⟨t, ht⟩ := Option.isSome_iff_exists.mp (hparse e hes hcond.1 hcond.2)
    exact ⟨e.value, t, hval, ht⟩
  rw [cleanupLoop_spec now SKEW _ s 0 hksnd hget]
  have hcount : ((redisKeys s now (nonceNamespace st)).filter
      (fun k => delQ s now SKEW k)).length =
      (s.filter (expiredNonceEntry st now SKEW)).length := by
    unfold redisKeys
    rw [List.filter_map, List.length_map, List.filter_filter]
    congr 1
    apply List.filter_congr
    intro e he
    simp only [Function.comp]
    exact delQ_and_cond_eq_expired st s now SKEW hnd e he
  have hstore : s.filter (fun e => !((redisKeys s now (nonceNamespace st)).contains e.key &&
      delQ s now SKEW e.key)) = s.filter (fun e => !expiredNonceEntry st now SKEW e) := by
    apply List.filter_congr
    intro e he
    rw [contains_delQ_eq_expired st s now SKEW hnd e he]
  rw [hcount, hstore, Nat.zero_add]

/-- Witness for C8 at concrete inputs: three nonce records (two outside the
skew window, one inside) and one association record; exactly the two stale
nonces are deleted and counted. -/
theorem cleanupNonces_spec_w :
    cleanupNonces ⟨"p"⟩
      [⟨"p-nonce-a", "100", some 99999⟩, ⟨"p-nonce-b", "5000", some 99999⟩,
       ⟨"p-nonce-c", "9000", some 99999⟩, ⟨"p-assoc", "blob", none⟩] 9100 3600 =
      .ok ((([⟨"p-nonce-a", "100", some 99999⟩, ⟨"p-nonce-b", "5000", some 99999⟩,
         ⟨"p-nonce-c", "9000", some 99999⟩, ⟨"p-assoc", "blob", none⟩] : Store).filter
           (expiredNonceEntry ⟨"p"⟩ 9100 3600)).length,
        ([⟨"p-nonce-a", "100", some 99999⟩, ⟨"p-nonce-b", "5000", some 99999⟩,
         ⟨"p-nonce-c", "9000", some 99999⟩, ⟨"p-assoc", "blob", none⟩] : Store).filter
           (fun e => !expiredNonceEntry ⟨"p"⟩ 9100 3600 e)) :=
  cleanupNonces_spec ⟨"p"⟩
    [⟨"p-nonce-a", "100", some 99999⟩, ⟨"p-nonce-b", "5000", some 99999⟩,
     ⟨"p-nonce-c", "9000", some 99999⟩, ⟨"p-assoc", "blob", none⟩] 9100 3600
    (by decide) (by decide)
